import Mathlib

/-!
# cmpsh: command pipeline engine

A shallow embedding of `src/cmpsh.c`.

Conventions of the embedding.
* A C string is the list of its characters before the terminating NUL, so
  `*ptr == 0` is "the list is empty". The characters the code singles out
  (whitespace, the two quotes, `|`, `>`, newline) are all ASCII.
* `malloc`, `strdup`, `pipe`, `fork` and `open` are taken to succeed; in the
  model of the array `pids` the value `fork` returns is a parameter.
* A `char*` in an array is a cell that is NULL, a pointer to a string, or
  indeterminate (never written).
-/

namespace Cmpsh

/-! ## Configuration constants -/

/-- Maximum input line length (`MAX_LINE`). -/
def MAX_LINE : Nat := 1024

/-- Maximum tokens per command (`MAX_TOKENS`). -/
def MAX_TOKENS : Nat := 10

/-- Maximum commands in a pipeline (`MAX_COMMANDS`). -/
def MAX_COMMANDS : Nat := 10

/-- An argument string. -/
abbrev Token := List Char

/-- The C locale test `isspace`: space, `\t`, `\n`, `\v`, `\f`, `\r`. -/
def isspace (c : Char) : Bool :=
  c == ' ' || c == '\t' || c == '\n' || c == '\x0b' || c == '\x0c' || c == '\r'

/-- Error kinds reported on the error stream. -/
inductive ShellError where
  | UnclosedQuote
  | EmptyCommand
  | InvalidRedirectionSyntax
  | CommandNotFound
  deriving DecidableEq, Repr

/-! ## tokenize_command (lines 289-378) -/

/-- The local variables of `tokenize_command` that the loop reads and writes.
`tokens` is `tokens[0..num_tokens)`, `buffer` is `buffer[0..buffer_idx)`,
`token_start` records whether the pointer `token_start` is non-NULL. -/
structure TokState where
  tokens : List Token
  token_start : Bool
  in_quotes : Bool
  quote_char : Char
  buffer : List Char
  deriving DecidableEq, Repr

/-- The locals as initialised on lines 290-296. -/
def TokState.init : TokState :=
  { tokens := [], token_start := false, in_quotes := false,
    quote_char := Char.ofNat 0, buffer := [] }

/-- One iteration of the loop body (lines 304-352) on the character `c = *ptr`. -/
def tokStep (c : Char) (st : TokState) : TokState :=
  if isspace c && !st.in_quotes then
    if st.token_start then
      { st with tokens := st.tokens ++ [st.buffer], buffer := [], token_start := false }
    else st
  else if (c == '"' || c == '\'') && !st.in_quotes then
    { st with in_quotes := true, quote_char := c, token_start := true }
  else if c == st.quote_char && st.in_quotes then
    { st with tokens := st.tokens ++ [st.buffer], buffer := [], in_quotes := false,
              token_start := false }
  else
    { st with token_start := if !st.in_quotes && !st.token_start then true else st.token_start,
              buffer := st.buffer ++ [c] }

/-- The loop `while (*ptr && num_tokens < max_tokens)` of line 303. -/
def tokLoop (max_tokens : Int) : List Char → TokState → TokState
  | [], st => st
  | c :: rest, st =>
    if (st.tokens.length : Int) < max_tokens then tokLoop max_tokens rest (tokStep c st)
    else st

/-- What `tokenize_command` hands back: the return value and the strings
the caller's array still owns. -/
structure TokResult where
  ret : Int
  tokens : List Token
  deriving DecidableEq, Repr

/-- The code after the loop (lines 355-377): store the last token, then
fail and free everything when a quote is still open. -/
def tokFinish (max_tokens : Int) (st : TokState) : TokResult :=
  let tokens :=
    if st.token_start && decide ((st.tokens.length : Int) < max_tokens) then
      st.tokens ++ [st.buffer]
    else st.tokens
  if st.in_quotes then { ret := -1, tokens := [] }
  else { ret := tokens.length, tokens := tokens }

/-- The function `tokenize_command(cmd, tokens, max_tokens)`. -/
def tokenize_command (cmd : List Char) (max_tokens : Int) : TokResult :=
  tokFinish max_tokens (tokLoop max_tokens cmd TokState.init)

/-! ## trim_whitespace (lines 241-262) -/

/-- The loop `while (end > str && isspace(*end)) end--` of line 256, on the
index of `end` in `str`; the result is the final index. -/
def trimEnd (str : List Char) : Nat → Nat
  | 0 => 0
  | e + 1 => if isspace (str.getD (e + 1) (Char.ofNat 0)) then trimEnd str e else e + 1

/-- The function `trim_whitespace(str)`: the string the returned pointer
designates. -/
def trim_whitespace (str : List Char) : List Char :=
  let s := str.dropWhile isspace
  if s = [] then s
  else s.take (trimEnd s (s.length - 1) + 1)

/-! ## Pipeline parsing (lines 465-475) -/

/-- The library call `strtok(_, "|")` resumed at the saved position `s`:
separators at the front are skipped; at the end of the string the result is
NULL; otherwise the token runs to the next separator, and the saved position
moves just past it. -/
def strtok (s : List Char) : Option (List Char × List Char) :=
  let s1 := s.dropWhile (fun c => c == '|')
  if s1 = [] then none
  else some (s1.takeWhile (fun c => c != '|'), (s1.dropWhile (fun c => c != '|')).drop 1)

/-- The loop `while (cmd && num_commands < MAX_COMMANDS)` of lines 469-472;
the first argument is the room left, `MAX_COMMANDS - num_commands`. -/
def parseLoop : Nat → Option (List Char × List Char) → List (List Char)
  | 0, _ => []
  | _ + 1, none => []
  | k + 1, some (cmd, saved) => trim_whitespace cmd :: parseLoop k (strtok saved)

/-- The segments `commands[0..num_commands)` built from `trimmed_line`. -/
def parse_pipeline (trimmed_line : List Char) : List (List Char) :=
  parseLoop MAX_COMMANDS (strtok trimmed_line)

/-! ## Per-stage tokenizing (lines 477-492) -/

/-- The loop over the stages: a negative return aborts the line (the
tokenizer has reported the unclosed quote), a zero return is `Empty command`. -/
def tokenize_stages : List (List Char) → Except ShellError (List (List Token))
  | [] => .ok []
  | cmd :: rest =>
    let r := tokenize_command cmd MAX_TOKENS
    if r.ret < 0 then .error .UnclosedQuote
    else if r.ret = 0 then .error .EmptyCommand
    else
      match tokenize_stages rest with
      | .error e => .error e
      | .ok l => .ok (r.tokens :: l)

/-! ## The array `cmd_tokens[MAX_COMMANDS][MAX_TOKENS]` -/

/-- One `char*` slot of `cmd_tokens`. -/
inductive Cell where
  | null
  | ptr (t : Token)
  | indeterminate
  deriving DecidableEq, Repr

/-- Row `c` after lines 481-484: every slot NULL, then the tokens stored from
slot 0 on. -/
def fill_row (toks : List Token) : List Cell :=
  toks.map Cell.ptr ++ List.replicate (MAX_TOKENS - toks.length) Cell.null

/-- The whole array in row-major order after the tokenizing loop: the rows of
the stages, then the rows that were never written. -/
def cmd_tokens_mem (stages : List (List Token)) : List Cell :=
  (stages.map fill_row).flatten ++
    List.replicate ((MAX_COMMANDS - stages.length) * MAX_TOKENS) Cell.indeterminate

/-- The argument vector `execv` reads from a `char**`: the strings up to the
first NULL. Running into an indeterminate slot or off the array has no
defined result. -/
def read_argv : List Cell → Option (List Token)
  | [] => none
  | Cell.null :: _ => some []
  | Cell.ptr t :: rest => (read_argv rest).map (fun l => t :: l)
  | Cell.indeterminate :: _ => none

/-! ## Alias substitution and built-in dispatch (lines 494-627) -/

/-- Lines 495-502: with one stage, an alias replaces the first token. -/
def apply_alias (lookup_alias : Token → Option Token) (stages : List (List Token)) :
    List (List Token) :=
  match stages with
  | [t :: ts] =>
    match lookup_alias t with
    | some a => [a :: ts]
    | none => stages
  | _ => stages

/-- The names compared on lines 506-591. -/
def builtin_names : List Token :=
  ["exit", "cd", "pwd", "help", "env", "history", "alias", "path", "paths"].map String.toList

/-! ## Redirection (lines 629-643) -/

/-- The scan of lines 631-636 from index `i` on: the index of the first `>`
token, or -1. -/
def redirect_scan_from (i : Nat) : List Token → Int
  | [] => -1
  | t :: ts => if t = ['>'] then (i : Int) else redirect_scan_from (i + 1) ts

/-- The value of `redirect` after the scan. -/
def redirect_scan (tokens : List Token) : Int := redirect_scan_from 0 tokens

/-- The test of line 638 with `n = cmd_num_tokens[0]`. -/
def redirect_invalid (redirect : Int) (n : Nat) : Bool :=
  redirect == 0 || redirect == (n : Int) - 1 || redirect != (n : Int) - 2

/-! ## Executable resolution (lines 655-677) -/

/-- The call `snprintf(full_path, sizeof(full_path), ...)`: at most
`MAX_LINE - 1` characters are stored. -/
def snprintf_full_path (s : List Char) : List Char := s.take (MAX_LINE - 1)

/-- The loop over `paths` of lines 657-663. The result is `full_path` when a
candidate passed the access check, and the list of paths handed to `access`. -/
def search_paths (X : List Char → Bool) (name : Token) :
    List (List Char) → Option (List Char) × List (List Char)
  | [] => (none, [])
  | d :: ds =>
    let full_path := snprintf_full_path (d ++ '/' :: name)
    if X full_path then (some full_path, [full_path])
    else
      let r := search_paths X name ds
      (r.1, full_path :: r.2)

/-- Lines 655-669: the search, then the name itself as a path. `none` is
`Command not found`. The second component lists the `access` calls. -/
def resolve (X : List Char → Bool) (paths : List (List Char)) (name : Token) :
    Option (List Char) × List (List Char) :=
  match search_paths X name paths with
  | (some p, log) => (some p, log)
  | (none, log) =>
    let full_path := snprintf_full_path name
    if X full_path then (some full_path, log ++ [full_path])
    else (none, log ++ [full_path])

/-! ## Fork loop (lines 653-715) -/

/-- What the shell depends on from outside the line: the outcome of
`access(path, X_OK) == 0`, the alias table, and the search paths. -/
structure Env where
  X : List Char → Bool
  lookup_alias : Token → Option Token
  paths : List (List Char)

/-- A forked child as it reaches `execv` (`fork` and `open` succeeding). -/
structure Child where
  stage : Nat
  image : List Char
  argv : Option (List Token)
  stdin_pipe : Option Nat
  stdout_pipe : Option Nat
  output_file : Option Token
  deriving DecidableEq, Repr

/-- What handling one line produced. -/
structure Report where
  errors : List ShellError
  children : List Child
  builtin : Option Token
  deriving DecidableEq, Repr

/-- The child branch (lines 680-707) for stage `c`, with `mem` the array
`cmd_tokens` and `full_path` the resolved path. -/
def child_branch (mem : List Cell) (num_commands c : Nat) (redirect : Int)
    (full_path : List Char) : Child :=
  let redirected : Bool := decide (c = num_commands - 1) && decide (redirect ≠ -1)
  let output_file : Option Token :=
    if redirected then
      match mem.get? (redirect + 1).toNat with
      | some (Cell.ptr t) => some t
      | _ => none
    else none
  let mem1 := if redirected then mem.set redirect.toNat Cell.null else mem
  { stage := c
    image := full_path
    argv := read_argv (mem1.drop (c * MAX_TOKENS))
    stdin_pipe := if c > 0 then some (c - 1) else none
    stdout_pipe := if c < num_commands - 1 then some c else none
    output_file := output_file }

/-- The loop `for (c = 0; c < num_commands; c++)` from stage `c` on, the
second list holding the token lists of the stages still to start. A failed
resolution reports `Command not found` and leaves the loop. -/
def fork_loop (env : Env) (mem : List Cell) (num_commands : Nat) (redirect : Int) :
    Nat → List (List Token) → Report
  | _, [] => { errors := [], children := [], builtin := none }
  | c, toks :: rest =>
    match (resolve env.X env.paths (toks.headD [])).1 with
    | none => { errors := [ShellError.CommandNotFound], children := [], builtin := none }
    | some full_path =>
      let r := fork_loop env mem num_commands redirect (c + 1) rest
      { r with children := child_branch mem num_commands c redirect full_path :: r.children }

/-- Lines 629-715 for the tokenized stages: the redirection check, which
abandons the line before anything is forked, then the fork loop. -/
def run_pipeline (env : Env) (stages : List (List Token)) : Report :=
  let num_commands := stages.length
  let redirect : Int := if num_commands = 1 then redirect_scan (stages.headD []) else -1
  if num_commands = 1 ∧ redirect ≠ -1 ∧
      redirect_invalid redirect (stages.headD []).length = true then
    { errors := [ShellError.InvalidRedirectionSyntax], children := [], builtin := none }
  else fork_loop env (cmd_tokens_mem stages) num_commands redirect 0 stages

/-- One turn of the main loop on a line that was read (lines 453-735). -/
def process_line (env : Env) (line : List Char) : Report :=
  let trimmed_line := trim_whitespace (line.takeWhile (fun c => c != '\n'))
  if trimmed_line = [] then { errors := [], children := [], builtin := none }
  else
    let commands := parse_pipeline trimmed_line
    if commands = [] then { errors := [], children := [], builtin := none }
    else
      match tokenize_stages commands with
      | .error e => { errors := [e], children := [], builtin := none }
      | .ok toks =>
        let stages := apply_alias env.lookup_alias toks
        if stages.length = 1 ∧ (stages.headD []).headD [] ∈ builtin_names then
          { errors := [], children := [], builtin := some ((stages.headD []).headD []) }
        else run_pipeline env stages

/-! ## Signal relay (lines 48, 61-80) -/

/-- The two signals the shell handles. -/
inductive Signal where
  | SIGINT
  | SIGTSTP
  deriving DecidableEq, Repr

/-- A call `kill(pid, sig)`. -/
structure KillCall where
  pid : Int
  sig : Signal
  deriving DecidableEq, Repr

/-- The handler `sigint_handler` on the global `current_child`: the value of
the global afterwards and the `kill` calls made. -/
def sigint_handler (current_child : Int) : Int × List KillCall :=
  if current_child ≠ -1 then (current_child, [{ pid := current_child, sig := Signal.SIGINT }])
  else (current_child, [])

/-- The handler `sigtstp_handler`, likewise. -/
def sigtstp_handler (current_child : Int) : Int × List KillCall :=
  if current_child ≠ -1 then (current_child, [{ pid := current_child, sig := Signal.SIGTSTP }])
  else (current_child, [])

/-! ## Reference notions used to state the properties -/

/-- A word as it is written in a segment: bare, or wrapped in the quote
character `q`. -/
inductive Word where
  | bare (s : List Char)
  | quoted (q : Char) (s : List Char)
  deriving DecidableEq, Repr

/-- The value of a word: its characters without the delimiting quotes. -/
def Word.value : Word → Token
  | Word.bare s => s
  | Word.quoted _ s => s

/-- The characters a word occupies in the segment. -/
def Word.written : Word → List Char
  | Word.bare s => s
  | Word.quoted q s => q :: (s ++ [q])

/-- A bare word is non-empty and has no whitespace and no quote character; a
quoted word is wrapped in `"` or `'` and does not contain its own quote. -/
def Word.WellFormed : Word → Prop
  | Word.bare s => s ≠ [] ∧ ∀ c ∈ s, isspace c = false ∧ c ≠ '"' ∧ c ≠ '\''
  | Word.quoted q s => (q = '"' ∨ q = '\'') ∧ q ∉ s

/-- A segment written as `lead`, then each word followed by its separator. -/
def written_line (lead : List Char) : List (Word × List Char) → List Char
  | [] => lead
  | p :: rest => lead ++ (p.1.written ++ written_line p.2 rest)

/-- Every separator but the one after the last word is non-empty. -/
def Separated : List (Word × List Char) → Prop
  | [] => True
  | [_] => True
  | p :: q :: rest => p.2 ≠ [] ∧ Separated (q :: rest)

/-- A state between tokens: no quote open, no token started, buffer empty. -/
def TokState.Idle (st : TokState) : Prop :=
  st.in_quotes = false ∧ st.token_start = false ∧ st.buffer = []

/-- The limit `m` has not been passed: fewer than `m` tokens are stored, or
exactly `m` and the scan stands between tokens. -/
def TokState.Within (m : Int) (st : TokState) : Prop :=
  (st.tokens.length : Int) < m ∨
    ((st.tokens.length : Int) = m ∧ st.in_quotes = false ∧ st.token_start = false)

/-- The environment of the worked examples: one search directory `/bin`, no
alias, and `/bin/cmd` and `/bin/ls` the only executables. -/
def example_env : Env :=
  { X := fun p => p == "/bin/cmd".toList || p == "/bin/ls".toList
    lookup_alias := fun _ => none
    paths := ["/bin".toList] }

/-- The search-path candidate `dir + "/" + name`. -/
def candidate (name : Token) (dir : List Char) : List Char := dir ++ '/' :: name

/-- The segments of a line split on the pipe character: one more than the
number of `|` in the line. -/
def split_on_pipe : List Char → List (List Char)
  | [] => [[]]
  | c :: cs =>
    if c = '|' then [] :: split_on_pipe cs
    else
      match split_on_pipe cs with
      | [] => [[c]]
      | s :: ss => (c :: s) :: ss

/-- The segments joined again with `|` between them. -/
def join_pipe : List (List Char) → List Char
  | [] => []
  | [s] => s
  | s :: t :: ts => s ++ '|' :: join_pipe (t :: ts)

/-- A string with its leading and trailing whitespace removed and the rest
unchanged. -/
def strip_ends (s : List Char) : List Char := (s.dropWhile isspace).rdropWhile isspace

/-- A string with all its whitespace ignored. -/
def strip_ws (s : List Char) : List Char := s.filter (fun c => !isspace c)

/-- An environment in which every path passes the access check; one search
directory `/bin`, no alias. -/
def permissive_env : Env :=
  { X := fun _ => true
    lookup_alias := fun _ => none
    paths := ["/bin".toList] }

/-! ## Descriptors of a child (lines 645-651, 680-703) -/

/-- The parent's side of the fork loop: what it stores in `pids`. The array
has no initialiser, so it starts with whatever it is found to hold; `fork_ret c`
is the value `fork` returns to the parent for stage `c`. A failed resolution
leaves the loop. -/
def fork_loop_pids (env : Env) (fork_ret : Nat → Int) :
    List Int → Nat → List (List Token) → List Int
  | pids, _, [] => pids
  | pids, c, toks :: rest =>
    match (resolve env.X env.paths (toks.headD [])).1 with
    | none => pids
    | some _ => fork_loop_pids env fork_ret (pids.set c (fork_ret c)) (c + 1) rest

/-- The loop of lines 723-735 from stage `c` on, `k` stages remaining: the
pids stored in `current_child` and passed to `waitpid`, in order. -/
def wait_loop (pids : List Int) : Nat → Nat → List Int
  | _, 0 => []
  | c, k + 1 =>
    if pids.getD c 0 > 0 then pids.getD c 0 :: wait_loop pids (c + 1) k
    else wait_loop pids (c + 1) k

/-- The pids the parent waits on for the tokenized stages, with `found` the
contents of `pids` before the fork loop. -/
def waited_pids (env : Env) (fork_ret : Nat → Int) (found : List Int)
    (stages : List (List Token)) : List Int :=
  wait_loop (fork_loop_pids env fork_ret found 0 stages) 0 stages.length

/-- The pids of the stages that were forked, in stage order: the stages before
the first failed resolution for which `fork` returned a child pid. -/
def forked_pids (env : Env) (fork_ret : Nat → Int) : Nat → List (List Token) → List Int
  | _, [] => []
  | c, toks :: rest =>
    match (resolve env.X env.paths (toks.headD [])).1 with
    | none => []
    | some _ =>
      (if fork_ret c > 0 then [fork_ret c] else []) ++ forked_pids env fork_ret (c + 1) rest

/-! ## The `path` built-in (lines 591-626) -/

/-- The branch of lines 591-625 on the tokens of the command: the search
paths afterwards, and whether the missing-argument error is reported. The
copy loop stores `cmd_tokens[0][i + 1]` in `paths[i]`. -/
def path_builtin (paths : List (List Char)) (tokens : List Token) : List (List Char) × Bool :=
  if tokens.length < 2 then (paths, true)
  else ((List.range (tokens.length - 1)).map (fun i => tokens.getD (i + 1) []), false)

/-- The search paths after one turn of the main loop on `line`, and whether
the `path` built-in reported its error: the line reaches the built-in when it
has a single stage whose first token, after alias substitution, is `path` or
`paths`; no other line changes the search paths. -/
def process_line_paths (env : Env) (line : List Char) : List (List Char) × Bool :=
  let trimmed_line := trim_whitespace (line.takeWhile (fun c => c != '\n'))
  if trimmed_line = [] then (env.paths, false)
  else
    let commands := parse_pipeline trimmed_line
    if commands = [] then (env.paths, false)
    else
      match tokenize_stages commands with
      | .error _ => (env.paths, false)
      | .ok toks =>
        let stages := apply_alias env.lookup_alias toks
        if stages.length = 1 ∧
            ((stages.headD []).headD [] = "path".toList ∨
              (stages.headD []).headD [] = "paths".toList) then
          path_builtin env.paths (stages.headD [])
        else (env.paths, false)

/-! ## add_to_history (lines 49-50, 88-112) -/

/-- Maximum history entries (`MAX_HISTORY`). -/
def MAX_HISTORY : Nat := 100

/-- The globals `command_history` and `history_count`: the pointer is NULL
(`none`) or designates an array of `MAX_HISTORY` slots, each NULL or a
string. -/
structure History where
  command_history : Option (List (Option Token))
  history_count : Nat
  deriving DecidableEq, Repr

/-- The globals at start-up. -/
def History.init : History := { command_history := none, history_count := 0 }

/-- The loop of lines 104-106: `command_history[i] = command_history[i + 1]`
for `i = 0 .. k - 1`. -/
def shift_down (k : Nat) (arr : List (Option Token)) : List (Option Token) :=
  (List.range k).foldl (fun a i => a.set i (a.getD (i + 1) none)) arr

/-- The function `add_to_history(command)` on the globals. -/
def add_to_history (h : History) (command : List Char) : History :=
  if command.length = 0 then h
  else
    let arr :=
      match h.command_history with
      | none => List.replicate MAX_HISTORY none
      | some a => a
    if h.history_count ≥ MAX_HISTORY then
      { command_history :=
          some ((shift_down (MAX_HISTORY - 1) arr).set (MAX_HISTORY - 1) (some command)),
        history_count := h.history_count }
    else
      { command_history := some (arr.set h.history_count (some command)),
        history_count := h.history_count + 1 }

/-- The entries `command_history[0 .. history_count)`, which `show_history`
lists. -/
def History.entries (h : History) : List (Option Token) :=
  match h.command_history with
  | none => []
  | some a => a.take h.history_count

/-- The history holds the most recent `MAX_HISTORY` of the commands `added`,
in order, in its first `history_count` slots. -/
def History.Holds (h : History) (added : List Token) : Prop :=
  h.history_count = min added.length MAX_HISTORY ∧
    match h.command_history with
    | none => added = []
    | some a =>
      a.length = MAX_HISTORY ∧
        a.take h.history_count = (added.drop (added.length - MAX_HISTORY)).map some

/-! ## Tokenizer: auxiliary facts -/

theorem tokLoop_full (m : Int) (l : List Char) (st : TokState)
    (h : ¬ ((st.tokens.length : Int) < m)) : tokLoop m l st = st := by
  cases l with
  | nil => rfl
  | cons c rest => simp [tokLoop, h]

theorem tokLoop_cons (m : Int) (c : Char) (l : List Char) (st : TokState)
    (h : (st.tokens.length : Int) < m) :
    tokLoop m (c :: l) st = tokLoop m l (tokStep c st) := by
  simp [tokLoop, h]

theorem tokStep_space_idle (c : Char) (st : TokState) (hc : isspace c = true)
    (hq : st.in_quotes = false) (ht : st.token_start = false) : tokStep c st = st := by
  simp [tokStep, hc, hq, ht]

theorem tokLoop_skip_space (m : Int) (sp rest : List Char) (st : TokState)
    (hsp : ∀ c ∈ sp, isspace c = true) (hq : st.in_quotes = false)
    (ht : st.token_start = false) : tokLoop m (sp ++ rest) st = tokLoop m rest st := by
  induction sp with
  | nil => rfl
  | cons c sp ih =>
    by_cases h : (st.tokens.length : Int) < m
    · rw [List.cons_append, tokLoop_cons m c _ st h,
        tokStep_space_idle c st (hsp c (by simp)) hq ht]
      exact ih (fun d hd => hsp d (by simp [hd]))
    · rw [tokLoop_full m _ st h, tokLoop_full m _ st h]

theorem tokLoop_bare (m : Int) (s rest : List Char) (c : Char) (st : TokState)
    (hs : ∀ d ∈ c :: s, isspace d = false ∧ d ≠ '"' ∧ d ≠ '\'')
    (hq : st.in_quotes = false) (h : (st.tokens.length : Int) < m) :
    tokLoop m (c :: s ++ rest) st =
      tokLoop m rest { st with token_start := true, buffer := st.buffer ++ c :: s } := by
  induction s generalizing c st with
  | nil =>
    obtain ⟨h1, h2, h3⟩ := hs c (by simp)
    rw [List.cons_append, List.nil_append, tokLoop_cons m c _ st h]
    congr 1
    cases hts : st.token_start <;> simp [tokStep, h1, h2, h3, hq, hts]
  | cons d s ih =>
    obtain ⟨h1, h2, h3⟩ := hs c (by simp)
    rw [List.cons_append, tokLoop_cons m c _ st h]
    have hstep : tokStep c st = { st with token_start := true, buffer := st.buffer ++ [c] } := by
      cases hts : st.token_start <;> simp [tokStep, h1, h2, h3, hq, hts]
    rw [hstep, ih d { st with token_start := true, buffer := st.buffer ++ [c] }
      (fun e he => hs e (by simp [List.mem_cons] at he ⊢; tauto)) hq h]
    simp

theorem tokLoop_in_quote (m : Int) (s rest : List Char) (q : Char) (st : TokState)
    (hs : q ∉ s) (hq : st.in_quotes = true) (hqc : st.quote_char = q)
    (h : (st.tokens.length : Int) < m) :
    tokLoop m (s ++ rest) st = tokLoop m rest { st with buffer := st.buffer ++ s } := by
  induction s generalizing st with
  | nil => simp
  | cons d s ih =>
    have hd : d ≠ q := fun e => hs (by simp [e])
    rw [List.cons_append, tokLoop_cons m d _ st h]
    have hstep : tokStep d st = { st with buffer := st.buffer ++ [d] } := by
      simp [tokStep, hq, hqc, hd]
    rw [hstep, ih { st with buffer := st.buffer ++ [d] } (fun e => hs (by simp [e])) hq hqc h]
    simp

theorem tokLoop_quoted (m : Int) (s rest : List Char) (q : Char) (st : TokState)
    (hq : q = '"' ∨ q = '\'') (hs : q ∉ s) (hidle : st.Idle)
    (h : (st.tokens.length : Int) < m) :
    tokLoop m (q :: (s ++ q :: rest)) st =
      tokLoop m rest { tokens := st.tokens ++ [s], token_start := false, in_quotes := false,
                       quote_char := q, buffer := [] } := by
  obtain ⟨h1, h2, h3⟩ := hidle
  have hsp : isspace q = false := by rcases hq with rfl | rfl <;> decide
  have hopen : tokStep q st = { st with in_quotes := true, quote_char := q, token_start := true } := by
    rcases hq with rfl | rfl <;> simp [tokStep, h1, hsp]
  have e1 := tokLoop_in_quote m s (q :: rest) q
    { st with in_quotes := true, quote_char := q, token_start := true } hs rfl rfl h
  have e2 := tokLoop_cons m q rest
    { tokens := st.tokens, token_start := true, in_quotes := true, quote_char := q,
      buffer := st.buffer ++ s } h
  rw [tokLoop_cons m q _ st h, hopen, e1, e2]
  congr 1
  simp [tokStep, h3]

theorem tokLoop_emit_space (m : Int) (c : Char) (rest : List Char) (st : TokState)
    (hc : isspace c = true) (hq : st.in_quotes = false) (ht : st.token_start = true)
    (h : (st.tokens.length : Int) < m) :
    tokLoop m (c :: rest) st =
      tokLoop m rest { st with tokens := st.tokens ++ [st.buffer], buffer := [],
                               token_start := false } := by
  rw [tokLoop_cons m c _ st h]
  congr 1
  simp [tokStep, hc, hq, ht]

theorem written_line_append (a b : List Char) (ws : List (Word × List Char)) :
    written_line (a ++ b) ws = a ++ written_line b ws := by
  cases ws <;> simp [written_line]

theorem Separated.tail {p : Word × List Char} {ws : List (Word × List Char)}
    (h : Separated (p :: ws)) : Separated ws := by
  cases ws with
  | nil => trivial
  | cons q rest => exact h.2

theorem tokFinish_idle (m : Int) (st : TokState) (h : st.Idle) :
    tokFinish m st = { ret := st.tokens.length, tokens := st.tokens } := by
  obtain ⟨h1, h2, _⟩ := h
  simp [tokFinish, h1, h2]

theorem tokenize_words_from (m : Int) (ws : List (Word × List Char)) :
    ∀ (lead : List Char) (st : TokState), st.Idle →
      (∀ c ∈ lead, isspace c = true) →
      (∀ p ∈ ws, p.1.WellFormed ∧ ∀ c ∈ p.2, isspace c = true) →
      Separated ws → ((st.tokens.length + ws.length : Nat) : Int) ≤ m →
      tokFinish m (tokLoop m (written_line lead ws) st) =
        { ret := ((st.tokens.length + ws.length : Nat) : Int),
          tokens := st.tokens ++ ws.map (fun p => p.1.value) } := by
  induction ws with
  | nil =>
    intro lead st hidle hlead _ _ _
    have := tokLoop_skip_space m lead [] st hlead hidle.1 hidle.2.1
    simp only [List.append_nil] at this
    simp [written_line, this, tokLoop, tokFinish_idle m st hidle]
  | cons p rest ih =>
    intro lead st hidle hlead hwf hsep hlen
    obtain ⟨w, sep⟩ := p
    have hlt : (st.tokens.length : Int) < m := by
      simp only [List.length_cons] at hlen; omega
    have hw := (hwf (w, sep) (by simp)).1
    have hsepw := (hwf (w, sep) (by simp)).2
    have hwf1 : ∀ p ∈ rest, p.1.WellFormed ∧ ∀ c ∈ p.2, isspace c = true :=
      fun p hp => hwf p (by simp [hp])
    simp only [written_line]
    rw [tokLoop_skip_space m lead _ st hlead hidle.1 hidle.2.1]
    cases w with
    | quoted q s =>
      simp only [Word.written, List.cons_append, List.append_assoc, List.singleton_append,
        List.nil_append]
      rw [tokLoop_quoted m s _ q st hw.1 hw.2 hidle hlt]
      rw [ih sep { tokens := st.tokens ++ [s], token_start := false, in_quotes := false,
                   quote_char := q, buffer := [] } ⟨rfl, rfl, rfl⟩ hsepw hwf1 hsep.tail
        (by simp only [List.length_append, List.length_cons, List.length_nil] at hlen ⊢; omega)]
      simp [Word.value]; omega
    | bare s =>
      obtain ⟨hne, hchars⟩ := hw
      cases s with
      | nil => exact absurd rfl hne
      | cons c s =>
        simp only [Word.written]
        rw [tokLoop_bare m s _ c st hchars hidle.1 hlt]
        cases sep with
        | nil =>
          cases rest with
          | cons q rest1 => exact absurd rfl hsep.1
          | nil =>
            simp [written_line, tokLoop, tokFinish, hidle.1, hidle.2.2, hlt, Word.value]
        | cons d sep1 =>
          have h2 := written_line_append [d] sep1 rest
          simp only [List.singleton_append] at h2
          rw [h2, tokLoop_emit_space m d _
            { st with token_start := true, buffer := st.buffer ++ c :: s }
            (hsepw d (by simp)) hidle.1 rfl hlt]
          rw [ih sep1 { tokens := st.tokens ++ [st.buffer ++ c :: s], token_start := false,
                        in_quotes := st.in_quotes, quote_char := st.quote_char, buffer := [] }
            ⟨hidle.1, rfl, rfl⟩ (fun e he => hsepw e (by simp [he])) hwf1 hsep.tail
            (by simp only [List.length_append, List.length_cons, List.length_nil] at hlen ⊢; omega)]
          simp [Word.value, hidle.2.2]; omega

theorem tokStep_tokens (c : Char) (st : TokState) :
    (tokStep c st).tokens = st.tokens ∨
      ((tokStep c st).tokens = st.tokens ++ [st.buffer] ∧ (tokStep c st).in_quotes = false ∧
        (tokStep c st).token_start = false) := by
  unfold tokStep
  split_ifs <;> simp_all

theorem tokStep_within (m : Int) (c : Char) (st : TokState)
    (h : (st.tokens.length : Int) < m) : (tokStep c st).Within m := by
  rcases tokStep_tokens c st with h1 | ⟨h1, h2, h3⟩
  · left
    rw [h1]
    exact h
  · by_cases hlt : ((st.tokens.length : Int) + 1) < m
    · left
      rw [h1]
      simp only [List.length_append, List.length_cons, List.length_nil]
      omega
    · right
      refine ⟨?_, h2, h3⟩
      rw [h1]
      simp only [List.length_append, List.length_cons, List.length_nil]
      omega

theorem tokLoop_prefix (n : Int) (l : List Char) :
    ∀ st : TokState, ∃ ext, (tokLoop n l st).tokens = st.tokens ++ ext := by
  induction l with
  | nil => intro st; exact ⟨[], by simp [tokLoop]⟩
  | cons c rest ih =>
    intro st
    by_cases h : (st.tokens.length : Int) < n
    · rw [tokLoop_cons n c rest st h]
      obtain ⟨ext, hext⟩ := ih (tokStep c st)
      rcases tokStep_tokens c st with h1 | ⟨h1, _, _⟩
      · refine ⟨ext, ?_⟩
        rw [hext, h1]
      · refine ⟨st.buffer :: ext, ?_⟩
        rw [hext, h1]
        simp
    · rw [tokLoop_full n _ st h]
      exact ⟨[], by simp⟩

theorem tokLoop_within (m : Int) (l : List Char) :
    ∀ st : TokState, st.Within m → (tokLoop m l st).Within m := by
  induction l with
  | nil => intro st h; exact h
  | cons c rest ih =>
    intro st hst
    by_cases h : (st.tokens.length : Int) < m
    · rw [tokLoop_cons m c rest st h]
      exact ih _ (tokStep_within m c st h)
    · rw [tokLoop_full m _ st h]
      exact hst

theorem tokLoop_truncate (m n : Int) (hmn : m ≤ n) (l : List Char) :
    ∀ st : TokState, st.Within m →
      tokLoop m l st = tokLoop n l st ∨
        (((tokLoop m l st).tokens.length : Int) = m ∧ (tokLoop m l st).in_quotes = false ∧
          (tokLoop m l st).token_start = false ∧
          ∃ ext, (tokLoop n l st).tokens = (tokLoop m l st).tokens ++ ext) := by
  induction l with
  | nil => intro st _; left; rfl
  | cons c rest ih =>
    intro st hst
    by_cases h : (st.tokens.length : Int) < m
    · rw [tokLoop_cons m c rest st h, tokLoop_cons n c rest st (by omega)]
      exact ih _ (tokStep_within m c st h)
    · rw [tokLoop_full m _ st h]
      rcases hst with h1 | ⟨h1, h2, h3⟩
      · exact absurd h1 h
      · right
        exact ⟨h1, h2, h3, tokLoop_prefix n _ st⟩

theorem within_init (m : Int) (hm : 0 ≤ m) : TokState.init.Within m := by
  by_cases h : (0 : Int) < m
  · left; simpa [TokState.init] using h
  · right
    refine ⟨?_, rfl, rfl⟩
    simp only [TokState.init, List.length_nil, Nat.cast_zero]
    omega

theorem tokFinish_ok (n : Int) (st : TokState) (h : 0 ≤ (tokFinish n st).ret) :
    st.in_quotes = false := by
  cases hq : st.in_quotes
  · rfl
  · simp [tokFinish, hq] at h

/-! ## Tokenizer: the properties -/

/-- C1: a segment made of at most `max_tokens` well-formed words (bare, or
wrapped in `"` or `'`), separated by non-empty whitespace with optional
whitespace at both ends, tokenizes successfully to exactly the values of the
words in order, quotes removed. -/
theorem tokenize_command_words (lead : List Char) (ws : List (Word × List Char))
    (max_tokens : Int) (hlen : (ws.length : Int) ≤ max_tokens)
    (hlead : ∀ c ∈ lead, isspace c = true)
    (hwf : ∀ p ∈ ws, p.1.WellFormed ∧ ∀ c ∈ p.2, isspace c = true)
    (hsep : Separated ws) :
    tokenize_command (written_line lead ws) max_tokens =
      { ret := (ws.length : Int), tokens := ws.map (fun p => p.1.value) } := by
  have h := tokenize_words_from max_tokens ws lead TokState.init ⟨rfl, rfl, rfl⟩ hlead hwf hsep
    (by simpa [TokState.init] using hlen)
  simpa [tokenize_command, TokState.init] using h

/-- C1 at the segment `a "b c" 'd'`, which yields `a`, `b c`, `d`. -/
theorem tokenize_command_words_witness :
    tokenize_command ['a', ' ', '"', 'b', ' ', 'c', '"', ' ', '\'', 'd', '\''] 10 =
      { ret := 3, tokens := [['a'], ['b', ' ', 'c'], ['d']] } :=
  tokenize_command_words []
    [(Word.bare ['a'], [' ']), (Word.quoted '"' ['b', ' ', 'c'], [' ']),
      (Word.quoted '\'' ['d'], [])] 10 (by decide) (by simp)
    (by simp [Word.WellFormed, isspace]) (by simp [Separated])

/-- C3: if the call with limit `n` succeeds with tokens `ts`, the call with a
limit `m`, `0 ≤ m ≤ n`, succeeds too and returns the first `min m |ts|`
tokens of `ts`; so it never returns more than `m` tokens. -/
theorem tokenize_command_truncate (s : List Char) (m n : Int) (hm : 0 ≤ m) (hmn : m ≤ n)
    (hok : 0 ≤ (tokenize_command s n).ret) :
    tokenize_command s m =
        { ret := ((min m.toNat (tokenize_command s n).tokens.length : Nat) : Int),
          tokens := (tokenize_command s n).tokens.take m.toNat } ∧
      ((tokenize_command s m).tokens.length : Int) ≤ m := by
  obtain ⟨k, rfl⟩ := Int.eq_ofNat_of_zero_le hm
  have hw := tokLoop_within (k : Int) s TokState.init (within_init _ hm)
  have hq := tokFinish_ok n _ hok
  have key : tokenize_command s (k : Int) =
      { ret := ((min k (tokenize_command s n).tokens.length : Nat) : Int),
        tokens := (tokenize_command s n).tokens.take k } := by
    unfold tokenize_command at hq ⊢
    rcases tokLoop_truncate (k : Int) n hmn s TokState.init (within_init _ hm) with h1 | ⟨h1, h2, h3, ext, h4⟩
    · rw [h1] at hw ⊢
      generalize tokLoop n s TokState.init = sn at hw hq ⊢
      rcases hw with hlt | ⟨heq, _, hts⟩
      · have hlt1 : sn.tokens.length < k := by exact_mod_cast hlt
        have hlt2 : (sn.tokens.length : Int) < n := by omega
        cases hts : sn.token_start
        · simp [tokFinish, hq, hts]
          omega
        · simp [tokFinish, hq, hts, hlt, hlt2]
          omega
      · have heq1 : sn.tokens.length = k := by exact_mod_cast heq
        simp [tokFinish, hq, hts, heq1]
    · have h1k : (tokLoop (k : Int) s TokState.init).tokens.length = k := by exact_mod_cast h1
      generalize tokLoop n s TokState.init = sn at hq h4 ⊢
      generalize tokLoop (k : Int) s TokState.init = sm at h1k h2 h3 h4 ⊢
      simp only [tokFinish, hq, h2, h3, h4, h1k, Bool.false_and, Bool.false_eq_true, if_false]
      split_ifs
      · simp [← h1k]
      · simp [← h1k]
  refine ⟨by simpa using key, ?_⟩
  rw [key]
  simp

/-- C3 at `a b c` with limits 1 and 2. -/
theorem tokenize_command_truncate_witness :
    tokenize_command ['a', ' ', 'b', ' ', 'c'] 1 = { ret := 1, tokens := [['a']] } ∧
      ((tokenize_command ['a', ' ', 'b', ' ', 'c'] 1).tokens.length : Int) ≤ 1 :=
  tokenize_command_truncate ['a', ' ', 'b', ' ', 'c'] 1 2 (by decide) (by decide) (by decide)

/-! ## Redirection: auxiliary facts -/

theorem redirect_scan_from_none (tokens : List Token) (h : ['>'] ∉ tokens) :
    ∀ k : Nat, redirect_scan_from k tokens = -1 := by
  induction tokens with
  | nil => intro k; rfl
  | cons t ts ih =>
    intro k
    have ht : t ≠ ['>'] := fun e => h (by simp [e])
    simp only [redirect_scan_from, ht, if_false]
    exact ih (fun hm => h (by simp [hm])) (k + 1)

theorem redirect_scan_from_first (pre post : List Token) (h : ['>'] ∉ pre) :
    ∀ k : Nat, redirect_scan_from k (pre ++ ['>'] :: post) = ((k + pre.length : Nat) : Int) := by
  induction pre with
  | nil => intro k; simp [redirect_scan_from]
  | cons t ts ih =>
    intro k
    have ht : t ≠ ['>'] := fun e => h (by simp [e])
    have e := ih (fun hm => h (by simp [hm])) (k + 1)
    rw [List.cons_append]
    simp only [redirect_scan_from, ht, if_false, List.length_cons]
    rw [e]
    congr 1
    omega

theorem read_argv_ptrs (toks : List Token) (rest : List Cell) :
    read_argv (toks.map Cell.ptr ++ Cell.null :: rest) = some toks := by
  induction toks with
  | nil => rfl
  | cons t ts ih => simp [read_argv, ih]

/-- The report of a single-stage line whose stage was forked. -/
theorem run_pipeline_single (env : Env) (tokens : List Token)
    (h : ¬ (redirect_scan tokens ≠ -1 ∧
      redirect_invalid (redirect_scan tokens) tokens.length = true)) :
    run_pipeline env [tokens] =
      match (resolve env.X env.paths (tokens.headD [])).1 with
      | none => { errors := [ShellError.CommandNotFound], children := [], builtin := none }
      | some p =>
        { errors := [],
          children := [child_branch (cmd_tokens_mem [tokens]) 1 0 (redirect_scan tokens) p],
          builtin := none } := by
  simp only [run_pipeline, List.length_singleton, List.headD_cons, if_true, true_and, h, if_false,
    fork_loop]

theorem child_branch_redirect (pre : List Token) (f : Token) (p : List Char) :
    child_branch (cmd_tokens_mem [pre ++ [['>'], f]]) 1 0 (pre.length : Int) p =
      { stage := 0, image := p, argv := some pre, stdin_pipe := none, stdout_pipe := none,
        output_file := some f } := by
  have hget : (cmd_tokens_mem [pre ++ [['>'], f]]).get? (pre.length + 1) = some (Cell.ptr f) := by
    have e : (pre.map Cell.ptr).length ≤ pre.length + 1 := by simp
    simp only [cmd_tokens_mem, fill_row, List.map_append, List.map_cons, List.map_nil,
      List.flatten_cons, List.flatten_nil, List.append_nil, List.append_assoc,
      List.get?_eq_getElem?]
    rw [List.getElem?_append_right e]
    simp
  have hset : (cmd_tokens_mem [pre ++ [['>'], f]]).set pre.length Cell.null =
      pre.map Cell.ptr ++ Cell.null :: (Cell.ptr f ::
        (List.replicate (MAX_TOKENS - (pre ++ [['>'], f]).length) Cell.null ++
          List.replicate ((MAX_COMMANDS - 1) * MAX_TOKENS) Cell.indeterminate)) := by
    simp [cmd_tokens_mem, fill_row, List.set_append]
  have h1 : ((pre.length : Int) + 1).toNat = pre.length + 1 := by omega
  have h2 : ((pre.length : Int)).toNat = pre.length := by omega
  have h3 : ((pre.length : Int) ≠ -1) := by omega
  simp only [child_branch, h1, h2, hget, hset]
  simp [h3, read_argv_ptrs]

/-! ## Redirection: the property -/

/-- C4: for a single-stage line with tokens `tokens`: with no `>` token the
child is started with no redirection and `execv` reads the unchanged array;
when the first `>` stands at index `i = pre.length`, the line is accepted iff
`i ≥ 1` and `i = n - 2`, and then the output file is the last token and the
argument vector is exactly `tokens[0..i)`; in every other position the line is
rejected with the redirection syntax error before anything is forked. -/
theorem redirection_analysis (env : Env) (tokens : List Token)
    (hn : tokens.length ≤ MAX_TOKENS) :
    (['>'] ∉ tokens →
      redirect_scan tokens = -1 ∧
      run_pipeline env [tokens] =
        match (resolve env.X env.paths (tokens.headD [])).1 with
        | none => { errors := [ShellError.CommandNotFound], children := [], builtin := none }
        | some p =>
          { errors := [],
            children := [{ stage := 0, image := p, argv := read_argv (cmd_tokens_mem [tokens]),
                           stdin_pipe := none, stdout_pipe := none, output_file := none }],
            builtin := none }) ∧
    (∀ pre post : List Token, tokens = pre ++ ['>'] :: post → ['>'] ∉ pre →
      redirect_scan tokens = (pre.length : Int) ∧
      ((1 ≤ pre.length ∧ pre.length + 2 = tokens.length) →
        run_pipeline env [tokens] =
          match (resolve env.X env.paths (tokens.headD [])).1 with
          | none => { errors := [ShellError.CommandNotFound], children := [], builtin := none }
          | some p =>
            { errors := [],
              children := [{ stage := 0, image := p, argv := some (tokens.take pre.length),
                             stdin_pipe := none, stdout_pipe := none,
                             output_file := tokens.get? (tokens.length - 1) }],
              builtin := none }) ∧
      (¬ (1 ≤ pre.length ∧ pre.length + 2 = tokens.length) →
        run_pipeline env [tokens] =
          { errors := [ShellError.InvalidRedirectionSyntax], children := [], builtin := none })) := by
  constructor
  · intro hno
    have hs : redirect_scan tokens = -1 := redirect_scan_from_none tokens hno 0
    refine ⟨hs, ?_⟩
    rw [run_pipeline_single env tokens (by simp [hs]), hs]
    cases (resolve env.X env.paths (tokens.headD [])).1 <;> simp [child_branch]
  · intro pre post htok hpre
    have hs : redirect_scan tokens = (pre.length : Int) := by
      have := redirect_scan_from_first pre post hpre 0
      rw [htok]
      simpa [redirect_scan] using this
    refine ⟨hs, ?_, ?_⟩
    · rintro ⟨h1, h2⟩
      have hpost : ∃ f, post = [f] := by
        have h2 := h2
        rw [htok] at h2
        simp only [List.length_append, List.length_cons] at h2
        match post, h2 with
        | [f], _ => exact ⟨f, rfl⟩
        | [], h => simp at h
        | _ :: _ :: _, h => simp only [List.length_cons] at h; omega
      obtain ⟨f, rfl⟩ := hpost
      have hinv : redirect_invalid (redirect_scan tokens) tokens.length = false := by
        rw [hs]
        simp only [redirect_invalid, Bool.or_eq_false_iff, beq_eq_false_iff_ne, ne_eq,
          bne_eq_false_iff_eq]
        refine ⟨⟨?_, ?_⟩, ?_⟩ <;> omega
      rw [run_pipeline_single env tokens (by simp [hinv]), hs]
      subst htok
      cases (resolve env.X env.paths ((pre ++ [['>'], f]).headD [])).1 with
      | none => rfl
      | some p => simp [child_branch_redirect pre f p, List.getElem_append_right]
    · intro hbad
      have hinv : redirect_invalid (redirect_scan tokens) tokens.length = true := by
        rw [hs]
        simp only [redirect_invalid, Bool.or_eq_true, beq_iff_eq, bne_iff_ne, ne_eq]
        omega
      have hne : redirect_scan tokens ≠ -1 := by rw [hs]; omega
      simp [run_pipeline, hinv, hne]

set_option maxRecDepth 100000 in
/-- C4 at the four lines of the specification: `cmd arg > out.txt` is started
with arguments `cmd arg` and output file `out.txt`; `cmd > out.txt extra`,
`> out.txt` and `cmd arg1 arg2 >` are rejected. -/
theorem redirection_analysis_witness :
    run_pipeline example_env [["cmd".toList, "arg".toList, ['>'], "out.txt".toList]] =
        { errors := [],
          children := [{ stage := 0, image := "/bin/cmd".toList,
                         argv := some ["cmd".toList, "arg".toList],
                         stdin_pipe := none, stdout_pipe := none,
                         output_file := some "out.txt".toList }],
          builtin := none } ∧
      run_pipeline example_env [["cmd".toList, ['>'], "out.txt".toList, "extra".toList]] =
        { errors := [ShellError.InvalidRedirectionSyntax], children := [], builtin := none } ∧
      run_pipeline example_env [[['>'], "out.txt".toList]] =
        { errors := [ShellError.InvalidRedirectionSyntax], children := [], builtin := none } ∧
      run_pipeline example_env [["cmd".toList, "arg1".toList, "arg2".toList, ['>']]] =
        { errors := [ShellError.InvalidRedirectionSyntax], children := [], builtin := none } :=
  ⟨((redirection_analysis example_env _ (by decide)).2 ["cmd".toList, "arg".toList]
      ["out.txt".toList] rfl (by decide)).2.1 ⟨by decide, by decide⟩,
   ((redirection_analysis example_env _ (by decide)).2 ["cmd".toList]
      ["out.txt".toList, "extra".toList] rfl (by decide)).2.2 (by decide),
   ((redirection_analysis example_env _ (by decide)).2 [] ["out.txt".toList] rfl
      (by decide)).2.2 (by decide),
   ((redirection_analysis example_env _ (by decide)).2
      ["cmd".toList, "arg1".toList, "arg2".toList] [] rfl (by decide)).2.2 (by decide)⟩

/-! ## Executable resolution -/

theorem snprintf_full_path_fit (s : List Char) (h : s.length < MAX_LINE) :
    snprintf_full_path s = s := by
  unfold snprintf_full_path
  exact List.take_of_length_le (by omega)

theorem search_paths_none (X : List Char → Bool) (name : Token) (paths : List (List Char))
    (hfit : ∀ d ∈ paths, (candidate name d).length < MAX_LINE)
    (hX : ∀ d ∈ paths, X (candidate name d) = false) :
    search_paths X name paths = (none, paths.map (candidate name)) := by
  induction paths with
  | nil => rfl
  | cons d ds ih =>
    have e := snprintf_full_path_fit _ (hfit d (by simp))
    have hd := hX d (by simp)
    unfold candidate at e hd
    simp only [search_paths, e, hd, Bool.false_eq_true, if_false, List.map_cons,
      ih (fun x hx => hfit x (by simp [hx])) (fun x hx => hX x (by simp [hx]))]
    rfl

theorem search_paths_first (X : List Char → Bool) (name : Token) (pre post : List (List Char))
    (d : List Char) (hfit : ∀ e ∈ pre ++ d :: post, (candidate name e).length < MAX_LINE)
    (hpre : ∀ e ∈ pre, X (candidate name e) = false) (hd : X (candidate name d) = true) :
    search_paths X name (pre ++ d :: post) =
      (some (candidate name d), (pre ++ [d]).map (candidate name)) := by
  induction pre with
  | nil =>
    have e := snprintf_full_path_fit _ (hfit d (by simp))
    unfold candidate at e hd
    simp only [List.nil_append, search_paths, e, hd, if_true]
    rfl
  | cons c cs ih =>
    have e := snprintf_full_path_fit _ (hfit c (by simp))
    have hc := hpre c (by simp)
    have ih1 := ih (fun x hx => hfit x (by simp at hx ⊢; tauto)) (fun x hx => hpre x (by simp [hx]))
    unfold candidate at e hc
    rw [List.cons_append]
    simp only [search_paths, e, hc, Bool.false_eq_true, if_false, List.map_cons, ih1]
    rfl

/-- C5: with every candidate `dir + "/" + name` fitting the path buffer (and,
when there is no search directory, the name itself, as any token of a line
does), resolution returns the candidate of the first search
directory that passes the access check, having checked that directory and the
ones before it and no later one; when no candidate passes, it returns the name
itself if the name passes the check and fails with command-not-found
otherwise. -/
theorem resolve_first_match (X : List Char → Bool) (paths : List (List Char)) (name : Token)
    (hname : paths = [] → name.length < MAX_LINE)
    (hfit : ∀ d ∈ paths, (candidate name d).length < MAX_LINE) :
    (∀ (pre post : List (List Char)) (d : List Char), paths = pre ++ d :: post →
      (∀ e ∈ pre, X (candidate name e) = false) → X (candidate name d) = true →
      resolve X paths name = (some (candidate name d), (pre ++ [d]).map (candidate name))) ∧
    ((∀ e ∈ paths, X (candidate name e) = false) →
      resolve X paths name =
        (if X name = true then some name else none, paths.map (candidate name) ++ [name])) := by
  constructor
  · intro pre post d hp hpre hd
    subst hp
    simp only [resolve, search_paths_first X name pre post d hfit hpre hd]
  · intro hX
    have hlen : name.length < MAX_LINE := by
      cases paths with
      | nil => exact hname rfl
      | cons d ds =>
        have := hfit d (by simp)
        simp only [candidate, List.length_append, List.length_cons] at this
        omega
    simp only [resolve, search_paths_none X name paths hfit hX,
      snprintf_full_path_fit name hlen]
    cases X name <;> simp

/-- C5 at `resolve("ls", ["/bin", "/usr/bin"])` with `/bin/ls` and
`/usr/bin/ls` both executable: the result is `/bin/ls` and `/usr/bin/ls` is
never checked; and with no search path the name itself is tried. -/
theorem resolve_first_match_witness :
    resolve (fun p => p == "/bin/ls".toList || p == "/usr/bin/ls".toList)
        ["/bin".toList, "/usr/bin".toList] "ls".toList =
        (some "/bin/ls".toList, ["/bin/ls".toList]) ∧
      resolve (fun p => p == "/bin/ls".toList || p == "/usr/bin/ls".toList) [] "ls".toList =
        (none, ["ls".toList]) :=
  ⟨(resolve_first_match _ ["/bin".toList, "/usr/bin".toList] "ls".toList (by decide)
      (by decide)).1 [] ["/usr/bin".toList] "/bin".toList rfl (by decide) (by decide),
   (resolve_first_match (fun p => p == "/bin/ls".toList || p == "/usr/bin/ls".toList) []
      "ls".toList (by decide) (by decide)).2 (by decide)⟩

/-! ## Pipeline parsing: auxiliary facts -/

theorem trimEnd_take (s : List Char) (c : Char) (hc : isspace c = false) :
    ∀ e : Nat, e < (c :: s).length →
      (c :: s).take (trimEnd (c :: s) e + 1) = ((c :: s).take (e + 1)).rdropWhile isspace := by
  intro e
  induction e with
  | zero =>
    intro _
    simp only [trimEnd, List.take_succ_cons, List.take_zero]
    exact (List.rdropWhile_concat_neg isspace [] c (by simp [hc])).symm
  | succ e ih =>
    intro he
    have hget : (c :: s)[e + 1]? = some ((c :: s)[e + 1]) := List.getElem?_eq_getElem he
    have htake : (c :: s).take (e + 1 + 1) = (c :: s).take (e + 1) ++ [(c :: s)[e + 1]] := by
      rw [List.take_succ, hget]
      rfl
    rw [htake]
    simp only [trimEnd, List.getD_eq_getElem?_getD, hget, Option.getD_some]
    by_cases hsp : isspace ((c :: s)[e + 1]) = true
    · rw [if_pos hsp, List.rdropWhile_concat_pos isspace _ _ hsp]
      exact ih (by omega)
    · rw [if_neg hsp, List.rdropWhile_concat_neg isspace _ _ hsp, htake]

theorem trim_whitespace_eq (s : List Char) : trim_whitespace s = strip_ends s := by
  unfold trim_whitespace strip_ends
  cases h : s.dropWhile isspace with
  | nil => simp [List.rdropWhile_nil]
  | cons c r =>
    have hc : isspace c = false := by
      have := List.head_dropWhile_not isspace s (by simp [h])
      simpa [h] using this
    simp only [if_neg (List.cons_ne_nil c r)]
    have := trimEnd_take r c hc ((c :: r).length - 1) (by simp)
    rw [this]
    congr 1
    simp

theorem split_on_pipe_ne_nil (s : List Char) : split_on_pipe s ≠ [] := by
  cases s with
  | nil => simp [split_on_pipe]
  | cons c cs =>
    unfold split_on_pipe
    split_ifs
    · simp
    · cases split_on_pipe cs <;> simp

theorem split_on_pipe_take (s : List Char) :
    ∃ h t, split_on_pipe s = h :: t ∧ s.takeWhile (fun c => c != '|') = h ∧
      ((t = [] ∧ s.dropWhile (fun c => c != '|') = []) ∨
        ∃ r, s.dropWhile (fun c => c != '|') = '|' :: r ∧ split_on_pipe r = t) := by
  induction s with
  | nil => exact ⟨[], [], rfl, rfl, Or.inl ⟨rfl, rfl⟩⟩
  | cons c cs ih =>
    by_cases hc : c = '|'
    · subst hc
      exact ⟨[], split_on_pipe cs, by simp [split_on_pipe], by simp,
        Or.inr ⟨cs, by simp, rfl⟩⟩
    · obtain ⟨h, t, h1, h2, h3⟩ := ih
      refine ⟨c :: h, t, by simp [split_on_pipe, hc, h1], by simp [hc, h2], ?_⟩
      simpa [hc] using h3

theorem strtok_split (s : List Char) :
    match strtok s with
    | none => (split_on_pipe s).filter (fun x => x ≠ []) = []
    | some (tok, saved) =>
      (split_on_pipe s).filter (fun x => x ≠ []) =
        tok :: (split_on_pipe saved).filter (fun x => x ≠ []) := by
  induction s with
  | nil => simp [strtok, split_on_pipe]
  | cons c cs ih =>
    by_cases hc : c = '|'
    · subst hc
      have e : strtok ('|' :: cs) = strtok cs := by simp [strtok]
      rw [e]
      simpa [split_on_pipe] using ih
    · obtain ⟨h, t, h1, h2, h3⟩ := split_on_pipe_take (c :: cs)
      have hh : h ≠ [] := by
        rw [← h2]
        simp [hc]
      have e : strtok (c :: cs) = some (h, ((c :: cs).dropWhile (fun c => c != '|')).drop 1) := by
        simp only [strtok]
        have e1 : (c :: cs).dropWhile (fun c => c == '|') = c :: cs := by simp [hc]
        rw [e1, if_neg (List.cons_ne_nil c cs), h2]
      rw [e]
      simp only [h1, List.filter_cons, hh, ne_eq, not_false_eq_true, decide_True, if_true]
      congr 1
      rcases h3 with ⟨ht, hd⟩ | ⟨r, hr, hs⟩
      · rw [ht, hd]
        simp [split_on_pipe]
      · rw [hr, ← hs]
        simp

theorem parseLoop_split (k : Nat) :
    ∀ s : List Char, parseLoop k (strtok s) =
      (((split_on_pipe s).filter (fun x => x ≠ [])).take k).map trim_whitespace := by
  induction k with
  | zero => intro s; simp [parseLoop]
  | succ k ih =>
    intro s
    have h := strtok_split s
    cases hs : strtok s with
    | none =>
      rw [hs] at h
      simp only at h
      simp only [parseLoop, h, List.take_nil, List.map_nil]
    | some p =>
      obtain ⟨tok, saved⟩ := p
      rw [hs] at h
      simp only at h
      simp only [parseLoop, h, List.take_succ_cons, List.map_cons, ih saved]

/-- The parser returns the non-empty segments of the split, at most
`MAX_COMMANDS` of them, each with its ends stripped. -/
theorem parse_pipeline_eq (line : List Char) :
    parse_pipeline line =
      (((split_on_pipe line).filter (fun x => x ≠ [])).take MAX_COMMANDS).map strip_ends := by
  unfold parse_pipeline
  rw [parseLoop_split]
  exact List.map_congr_left (fun x _ => trim_whitespace_eq x)

theorem filter_nonempty_self (l : List (List Char)) (h : [] ∉ l) :
    l.filter (fun x => x ≠ []) = l := by
  rw [List.filter_eq_self]
  intro x hx
  have : x ≠ [] := fun e => h (e ▸ hx)
  simpa using this

theorem join_split_on_pipe (s : List Char) : join_pipe (split_on_pipe s) = s := by
  induction s with
  | nil => rfl
  | cons c cs ih =>
    by_cases hc : c = '|'
    · subst hc
      cases h : split_on_pipe cs with
      | nil => exact absurd h (split_on_pipe_ne_nil cs)
      | cons a b =>
        rw [h] at ih
        simp [split_on_pipe, h, join_pipe, ih]
    · cases h : split_on_pipe cs with
      | nil => exact absurd h (split_on_pipe_ne_nil cs)
      | cons a b =>
        rw [h] at ih
        cases b with
        | nil =>
          simp only [join_pipe] at ih
          simp [split_on_pipe, hc, h, join_pipe, ih]
        | cons b1 b2 =>
          simp only [join_pipe] at ih
          simp [split_on_pipe, hc, h, join_pipe, ih]

theorem strip_ws_dropWhile (s : List Char) : strip_ws (s.dropWhile isspace) = strip_ws s := by
  induction s with
  | nil => rfl
  | cons c cs ih =>
    cases hc : isspace c
    · simp [List.dropWhile, hc]
    · simp [List.dropWhile, hc, strip_ws] at ih ⊢
      exact ih

theorem strip_ws_strip_ends (s : List Char) : strip_ws (strip_ends s) = strip_ws s := by
  unfold strip_ends List.rdropWhile
  have h1 : ∀ l : List Char, strip_ws l.reverse = (strip_ws l).reverse := by
    intro l; simp [strip_ws]
  rw [h1, strip_ws_dropWhile, h1, List.reverse_reverse, strip_ws_dropWhile]

theorem strip_ws_join_pipe (l : List (List Char)) :
    strip_ws (join_pipe (l.map strip_ends)) = strip_ws (join_pipe l) := by
  induction l with
  | nil => rfl
  | cons a t ih =>
    cases t with
    | nil => simp [join_pipe, strip_ws_strip_ends]
    | cons b t1 =>
      have e1 : strip_ws (strip_ends a) = strip_ws a := strip_ws_strip_ends a
      simp only [List.map_cons, join_pipe] at ih ⊢
      simp only [strip_ws, List.filter_append, List.filter_cons] at ih e1 ⊢
      rw [e1, ih]

theorem split_on_pipe_no_pipe (s : List Char) (h : '|' ∉ s) : split_on_pipe s = [s] := by
  induction s with
  | nil => rfl
  | cons c cs ih =>
    have hc : c ≠ '|' := fun e => h (by simp [e])
    simp [split_on_pipe, hc, ih (fun hm => h (by simp [hm]))]

/-! ## Pipeline parsing: the properties -/

/-- C6, as stated, fails: the line `a||b` is parsed into the segments `a`
and `b`, which join to `a|b`; with whitespace ignored this is not the line. -/
theorem pipeline_roundtrip_counterexample :
    parse_pipeline (trim_whitespace ['a', '|', '|', 'b']) = [['a'], ['b']] ∧
      strip_ws (join_pipe (parse_pipeline (trim_whitespace ['a', '|', '|', 'b']))) =
        ['a', '|', 'b'] ∧
      strip_ws ['a', '|', '|', 'b'] = ['a', '|', '|', 'b'] := by
  decide

/-- C6, amended: when the trimmed line splits on the pipe character into at
most `MAX_COMMANDS` segments, none of them empty, joining the parsed segments
with `|` gives the line back once all whitespace is ignored. -/
theorem pipeline_roundtrip (raw : List Char)
    (hne : [] ∉ split_on_pipe (trim_whitespace raw))
    (hcap : (split_on_pipe (trim_whitespace raw)).length ≤ MAX_COMMANDS) :
    strip_ws (join_pipe (parse_pipeline (trim_whitespace raw))) = strip_ws raw := by
  rw [parse_pipeline_eq, filter_nonempty_self _ hne, List.take_of_length_le hcap,
    strip_ws_join_pipe, join_split_on_pipe, trim_whitespace_eq, strip_ws_strip_ends]

/-- C6, amended, at the line ` a | b c |d `. -/
theorem pipeline_roundtrip_witness :
    strip_ws (join_pipe (parse_pipeline (trim_whitespace " a | b c |d ".toList))) =
      strip_ws " a | b c |d ".toList :=
  pipeline_roundtrip " a | b c |d ".toList (by decide) (by decide)

/-- C7, as stated, fails: the trimmed line `a||b` splits into the three
segments `a`, the empty segment, `b`, but the parser returns two. -/
theorem parse_pipeline_segments_counterexample :
    split_on_pipe ['a', '|', '|', 'b'] = [['a'], [], ['b']] ∧
      ((split_on_pipe ['a', '|', '|', 'b']).take MAX_COMMANDS).map strip_ends =
        [['a'], [], ['b']] ∧
      parse_pipeline ['a', '|', '|', 'b'] = [['a'], ['b']] := by
  decide

/-- C7, amended: the parser returns the first `MAX_COMMANDS` of the non-empty
segments of the split, in order, each with its leading and trailing whitespace
removed and otherwise unchanged; so when no segment of the split is empty it
returns the first `min k MAX_COMMANDS` segments; and a trimmed non-empty line
with no pipe character yields the line as its only segment. -/
theorem parse_pipeline_segments (line : List Char) :
    parse_pipeline line =
        (((split_on_pipe line).filter (fun x => x ≠ [])).take MAX_COMMANDS).map strip_ends ∧
      ([] ∉ split_on_pipe line →
        parse_pipeline line = ((split_on_pipe line).take MAX_COMMANDS).map strip_ends ∧
        (parse_pipeline line).length = min (split_on_pipe line).length MAX_COMMANDS) ∧
      (line ≠ [] → '|' ∉ line → strip_ends line = line → parse_pipeline line = [line]) := by
  refine ⟨parse_pipeline_eq line, ?_, ?_⟩
  · intro hne
    have h := parse_pipeline_eq line
    rw [filter_nonempty_self _ hne] at h
    refine ⟨h, ?_⟩
    rw [h]
    simp [Nat.min_comm]
  · intro hl hp ht
    rw [parse_pipeline_eq, split_on_pipe_no_pipe line hp]
    simp [hl, MAX_COMMANDS, ht]

/-- C7, amended, at `ls -l | wc` and at `ls -l`. -/
theorem parse_pipeline_segments_witness :
    (parse_pipeline "ls -l | wc".toList = ["ls -l".toList, "wc".toList] ∧
        (parse_pipeline "ls -l | wc".toList).length = 2) ∧
      parse_pipeline "ls -l".toList = ["ls -l".toList] :=
  ⟨(parse_pipeline_segments "ls -l | wc".toList).2.1 (by decide),
   (parse_pipeline_segments "ls -l".toList).2.2 (by decide) (by decide) (by decide)⟩

/-! ## Line handling -/

theorem tokenize_stages_empty (pre post : List (List Char)) (seg : List Char)
    (hpre : ∀ s ∈ pre, 0 ≤ (tokenize_command s MAX_TOKENS).ret)
    (hseg : (tokenize_command seg MAX_TOKENS).ret = 0) :
    tokenize_stages (pre ++ seg :: post) = .error ShellError.EmptyCommand := by
  induction pre with
  | nil => simp [tokenize_stages, hseg]
  | cons s pre ih =>
    have h0 := hpre s (by simp)
    have ih1 := ih (fun x hx => hpre x (by simp [hx]))
    rw [List.cons_append]
    simp only [tokenize_stages, ih1]
    have h1 : ¬ (tokenize_command s MAX_TOKENS).ret < 0 := by omega
    rw [if_neg h1]
    split_ifs <;> rfl

theorem parse_pipeline_nil : parse_pipeline [] = [] := rfl

set_option maxRecDepth 100000 in
/-- C8 fails on the code at ten tokens: for the line
`a b c d e f g h i j | k` the first stage has the ten tokens `a` ... `j`, its
row of `cmd_tokens` holds no NULL, and the argument vector `execv` reads for
it runs on into the next row and ends with `k`. -/
theorem execv_argv_ten_tokens :
    (process_line permissive_env "a b c d e f g h i j | k".toList).children.map
        (fun ch => (ch.image, ch.argv)) =
      [("/bin/a".toList,
          some [['a'], ['b'], ['c'], ['d'], ['e'], ['f'], ['g'], ['h'], ['i'], ['j'], ['k']]),
        ("/bin/k".toList, some [['k']])] := by
  decide

set_option maxRecDepth 100000 in
/-- C9, as stated, fails: in `a|b|c|d|e|f|g|h|i|j| |k` the eleventh segment
is a single space, which tokenizes to zero tokens, yet no error is reported
and the first ten stages are forked. -/
theorem empty_command_counterexample :
    [' '] ∈ split_on_pipe "a|b|c|d|e|f|g|h|i|j| |k".toList ∧
      tokenize_command [' '] MAX_TOKENS = { ret := 0, tokens := [] } ∧
      (process_line permissive_env "a|b|c|d|e|f|g|h|i|j| |k".toList).errors = [] ∧
      (process_line permissive_env "a|b|c|d|e|f|g|h|i|j| |k".toList).children.map
          (fun ch => ch.argv) =
        [some [['a']], some [['b']], some [['c']], some [['d']], some [['e']], some [['f']],
          some [['g']], some [['h']], some [['i']], some [['j']]] := by
  decide

/-- C9, amended: when one of the segments the parser keeps (the first
`MAX_COMMANDS` non-empty segments of the trimmed line, ends stripped)
tokenizes to zero tokens and no segment before it has an unclosed quote, the
line is rejected with the empty-command error and no child is forked. -/
theorem empty_command_rejected (env : Env) (line : List Char)
    (pre post : List (List Char)) (seg : List Char)
    (hsplit : (((split_on_pipe (trim_whitespace (line.takeWhile (fun c => c != '\n')))).filter
      (fun x => x ≠ [])).take MAX_COMMANDS).map strip_ends = pre ++ seg :: post)
    (hpre : ∀ s ∈ pre, 0 ≤ (tokenize_command s MAX_TOKENS).ret)
    (hseg : (tokenize_command seg MAX_TOKENS).ret = 0) :
    process_line env line =
      { errors := [ShellError.EmptyCommand], children := [], builtin := none } := by
  rw [← parse_pipeline_eq] at hsplit
  have hne : trim_whitespace (line.takeWhile (fun c => c != '\n')) ≠ [] := by
    intro h
    rw [h, parse_pipeline_nil] at hsplit
    simp at hsplit
  simp only [process_line, if_neg hne, hsplit, tokenize_stages_empty pre post seg hpre hseg]
  simp

set_option maxRecDepth 100000 in
/-- C9, amended, at the line `ls | | wc`. -/
theorem empty_command_rejected_witness :
    process_line example_env "ls | | wc".toList =
      { errors := [ShellError.EmptyCommand], children := [], builtin := none } :=
  empty_command_rejected example_env "ls | | wc".toList ["ls".toList] ["wc".toList] []
    (by decide) (by decide) (by decide)

/-! ## Signal relay -/

/-- C10: with the slot holding a pid `P` (not -1), the interrupt handler
makes the single call `kill(P, SIGINT)` and the suspend handler the single
call `kill(P, SIGTSTP)`; with the slot at -1 neither handler makes any call;
neither handler changes the slot. -/
theorem signal_relay (P : Int) :
    (P ≠ -1 →
      sigint_handler P = (P, [{ pid := P, sig := Signal.SIGINT }]) ∧
      sigtstp_handler P = (P, [{ pid := P, sig := Signal.SIGTSTP }])) ∧
    sigint_handler (-1) = (-1, []) ∧ sigtstp_handler (-1) = (-1, []) ∧
    (sigint_handler P).1 = P ∧ (sigtstp_handler P).1 = P := by
  refine ⟨fun h => ⟨by simp [sigint_handler, h], by simp [sigtstp_handler, h]⟩, rfl, rfl, ?_, ?_⟩
  · unfold sigint_handler; split_ifs <;> rfl
  · unfold sigtstp_handler; split_ifs <;> rfl

/-- C10 at the child pid 4242. -/
theorem signal_relay_witness :
    sigint_handler 4242 = (4242, [{ pid := 4242, sig := Signal.SIGINT }]) ∧
      sigtstp_handler 4242 = (4242, [{ pid := 4242, sig := Signal.SIGTSTP }]) :=
  (signal_relay 4242).1 (by decide)

/-! ## Child wiring -/

theorem fork_loop_stage (env : Env) (mem : List Cell) (n : Nat) (r : Int)
    (rest : List (List Token)) :
    ∀ c : Nat, ∀ ch ∈ (fork_loop env mem n r c rest).children,
      c ≤ ch.stage ∧ ch.stage < c + rest.length := by
  induction rest with
  | nil => intro c ch h; simp [fork_loop] at h
  | cons toks rest ih =>
    intro c ch h
    simp only [fork_loop] at h
    split at h
    · simp at h
    · simp only [List.mem_cons] at h
      rcases h with rfl | h
      · simp [child_branch]
      · have := ih (c + 1) ch h
        simp only [List.length_cons]
        omega

theorem fork_loop_pids_getD (env : Env) (f : Nat → Int) (rest : List (List Token))
    (hres : ∀ t ∈ rest, (resolve env.X env.paths (t.headD [])).1 ≠ none) :
    ∀ (pids : List Int) (c : Nat), c + rest.length ≤ pids.length → ∀ i : Nat,
      (fork_loop_pids env f pids c rest).getD i 0 =
        if c ≤ i ∧ i < c + rest.length then f i else pids.getD i 0 := by
  induction rest with
  | nil =>
    intro pids c _ i
    have h : ¬ (c ≤ i ∧ i < c + ([] : List (List Token)).length) := by
      simp only [List.length_nil]; omega
    simp only [fork_loop_pids, if_neg h]
  | cons t rest ih =>
    intro pids c hlen i
    simp only [List.length_cons] at hlen
    have ht := hres t (by simp)
    have ih1 := ih (fun x hx => hres x (by simp [hx])) (pids.set c (f c)) (c + 1)
      (by rw [List.length_set]; omega) i
    cases hr : (resolve env.X env.paths (t.headD [])).1 with
    | none => exact absurd hr ht
    | some p =>
      simp only [fork_loop_pids, hr, ih1, List.length_cons]
      by_cases h1 : c = i
      · subst h1
        have h2 : ¬ (c + 1 ≤ c ∧ c < c + 1 + rest.length) := by omega
        have h3 : c ≤ c ∧ c < c + (rest.length + 1) := by omega
        have h4 : c < pids.length := by omega
        simp [h2, h3, List.getD_eq_getElem?_getD, List.getElem?_set, h4]
      · by_cases h5 : c + 1 ≤ i ∧ i < c + 1 + rest.length
        · have h6 : c ≤ i ∧ i < c + (rest.length + 1) := by omega
          simp [h5, h6]
        · have h6 : ¬ (c ≤ i ∧ i < c + (rest.length + 1)) := by omega
          simp [h5, h6, List.getD_eq_getElem?_getD, List.getElem?_set, h1]

theorem wait_loop_congr (p q : List Int) :
    ∀ (k c : Nat), (∀ i, c ≤ i → i < c + k → p.getD i 0 = q.getD i 0) →
      wait_loop p c k = wait_loop q c k := by
  intro k
  induction k with
  | zero => intro c _; rfl
  | succ k ih =>
    intro c h
    have h0 := h c (le_refl c) (by omega)
    have h1 := ih (c + 1) (fun i hi hk => h i (by omega) (by omega))
    simp only [wait_loop, h0, h1]

theorem wait_loop_forked (env : Env) (f : Nat → Int) (rest : List (List Token))
    (hres : ∀ t ∈ rest, (resolve env.X env.paths (t.headD [])).1 ≠ none) :
    ∀ (pids : List Int) (c : Nat), (∀ i, c ≤ i → i < c + rest.length → pids.getD i 0 = f i) →
      wait_loop pids c rest.length = forked_pids env f c rest := by
  induction rest with
  | nil => intro pids c _; rfl
  | cons t rest ih =>
    intro pids c h
    have ht := hres t (by simp)
    have h0 := h c (le_refl c) (by simp)
    have ih1 := ih (fun x hx => hres x (by simp [hx])) pids (c + 1)
      (fun i hi hk => h i (by omega) (by simp only [List.length_cons]; omega))
    cases hr : (resolve env.X env.paths (t.headD [])).1 with
    | none => exact absurd hr ht
    | some p =>
      simp only [List.length_cons, wait_loop, forked_pids, hr, h0, ih1]
      split_ifs <;> simp

/-- When every stage resolves, the parent waits on exactly the pids of the
forked stages, in stage order, whatever the array `pids` was found to hold. -/
theorem waited_pids_all_resolved (env : Env) (f : Nat → Int) (found : List Int)
    (stages : List (List Token)) (hlen : stages.length ≤ found.length)
    (hres : ∀ t ∈ stages, (resolve env.X env.paths (t.headD [])).1 ≠ none) :
    waited_pids env f found stages = forked_pids env f 0 stages := by
  unfold waited_pids
  apply wait_loop_forked env f stages hres
  intro i hi hk
  rw [fork_loop_pids_getD env f stages hres found 0 (by omega) i]
  simp only [Nat.zero_add] at hk
  simp [hk]

set_option maxRecDepth 100000 in
/-- C12 fails on the code when a resolution fails: for `ls | nosuchcmd`, with
`fork` returning 102 for the first stage and the array `pids` found holding
100 and 101, the second slot is never written and the parent waits on 102 and
then on 101, a pid no `fork` of this line returned. -/
theorem wait_loop_unforked_pid :
    forked_pids example_env (fun _ => 102) 0 [["ls".toList], ["nosuchcmd".toList]] = [102] ∧
      waited_pids example_env (fun _ => 102) [100, 101, 0, 0, 0, 0, 0, 0, 0, 0]
        [["ls".toList], ["nosuchcmd".toList]] = [102, 101] := by
  decide

/-! ## The `path` built-in -/

theorem map_getD_range (l : List Token) :
    (List.range l.length).map (fun i => l.getD i []) = l := by
  apply List.ext_getElem
  · simp
  · intro i h1 h2
    simp [List.getElem?_eq_getElem h2]

theorem path_builtin_cons (paths : List (List Char)) (name : Token) (dirs : List Token) :
    path_builtin paths (name :: dirs) = if dirs = [] then (paths, true) else (dirs, false) := by
  cases dirs with
  | nil => simp [path_builtin]
  | cons d ds =>
    have h : ¬ (name :: d :: ds).length < 2 := by simp
    have e := map_getD_range (d :: ds)
    simp only [path_builtin, if_neg h, List.length_cons, Nat.add_sub_cancel,
      List.getD_cons_succ] at e ⊢
    rw [e]
    simp

/-- C13: when the line has a single stage whose first token at the dispatch
(after alias substitution) is `path` or `paths`: with directory tokens
`d1 .. dk`, `k ≥ 1`, the search paths afterwards are exactly `d1 .. dk`,
whatever they were, and no error is reported; with no directory token the
error is reported and the search paths are unchanged; in both cases no child
is forked. -/
theorem path_builtin_sets_paths (env : Env) (line : List Char) (toks : List (List Token))
    (name : Token) (dirs : List Token)
    (htok : tokenize_stages (parse_pipeline
      (trim_whitespace (line.takeWhile (fun c => c != '\n')))) = .ok toks)
    (halias : apply_alias env.lookup_alias toks = [name :: dirs])
    (hname : name = "path".toList ∨ name = "paths".toList) :
    (dirs ≠ [] → process_line_paths env line = (dirs, false)) ∧
    (dirs = [] → process_line_paths env line = (env.paths, true)) ∧
    (process_line env line).children = [] := by
  have hcmd : parse_pipeline (trim_whitespace (line.takeWhile (fun c => c != '\n'))) ≠ [] := by
    intro h
    rw [h] at htok
    simp only [tokenize_stages, Except.ok.injEq] at htok
    subst htok
    simp [apply_alias] at halias
  have htrim : trim_whitespace (line.takeWhile (fun c => c != '\n')) ≠ [] := by
    intro h
    exact hcmd (by rw [h]; rfl)
  have hb : name ∈ builtin_names := by
    rcases hname with rfl | rfl <;> decide
  have hp : process_line_paths env line = path_builtin env.paths (name :: dirs) := by
    simp only [process_line_paths, if_neg htrim, if_neg hcmd, htok, halias,
      List.length_singleton, List.headD_cons, true_and, hname, if_true]
  refine ⟨?_, ?_, ?_⟩
  · intro hd
    rw [hp, path_builtin_cons, if_neg hd]
  · intro hd
    rw [hp, path_builtin_cons, if_pos hd]
  · simp only [process_line, if_neg htrim, if_neg hcmd, htok, halias,
      List.length_singleton, List.headD_cons, true_and, hb, if_true]

set_option maxRecDepth 100000 in
/-- C13 at `path /usr/bin /opt /usr/bin` and at `path` alone. -/
theorem path_builtin_sets_paths_witness :
    process_line_paths example_env "path /usr/bin /opt /usr/bin".toList =
        (["/usr/bin".toList, "/opt".toList, "/usr/bin".toList], false) ∧
      process_line_paths example_env "path".toList = (["/bin".toList], true) :=
  ⟨(path_builtin_sets_paths example_env "path /usr/bin /opt /usr/bin".toList
      [["path".toList, "/usr/bin".toList, "/opt".toList, "/usr/bin".toList]] "path".toList
      ["/usr/bin".toList, "/opt".toList, "/usr/bin".toList] (by rfl) (by decide)
      (Or.inl rfl)).1 (by decide),
   (path_builtin_sets_paths example_env "path".toList [["path".toList]] "path".toList []
      (by rfl) (by decide) (Or.inl rfl)).2.1 rfl⟩

/-! ## add_to_history -/

theorem shift_down_succ (k : Nat) (arr : List (Option Token)) :
    shift_down (k + 1) arr =
      (shift_down k arr).set k ((shift_down k arr).getD (k + 1) none) := by
  unfold shift_down
  rw [List.range_succ, List.foldl_append]
  rfl

theorem shift_down_length (k : Nat) (arr : List (Option Token)) :
    (shift_down k arr).length = arr.length := by
  induction k with
  | zero => rfl
  | succ k ih => rw [shift_down_succ, List.length_set, ih]

theorem shift_down_getElem? (arr : List (Option Token)) (k : Nat) (hk : k < arr.length)
    (i : Nat) : (shift_down k arr)[i]? = if i < k then arr[i + 1]? else arr[i]? := by
  induction k generalizing i with
  | zero => simp [shift_down]
  | succ k ih =>
    have hlen := shift_down_length k arr
    have hget : (shift_down k arr).getD (k + 1) none = arr[k + 1] := by
      have e : (shift_down k arr)[k + 1]? = arr[k + 1]? := by
        rw [ih (by omega) (k + 1), if_neg (by omega)]
      rw [List.getD_eq_getElem?_getD, e, List.getElem?_eq_getElem hk]
      rfl
    rw [shift_down_succ, hget, List.getElem?_set]
    by_cases hik : k = i
    · subst hik
      have h1 : k < (shift_down k arr).length := by omega
      simp [h1, List.getElem?_eq_getElem hk]
    · rw [if_neg hik, ih (by omega) i]
      by_cases h1 : i < k
      · simp [h1, Nat.lt_succ_of_lt h1]
      · have : ¬ i < k + 1 := by omega
        simp [h1, this]

theorem shift_down_set_last (arr : List (Option Token)) (n : Nat) (hn : arr.length = n + 1)
    (x : Option Token) : (shift_down n arr).set n x = arr.drop 1 ++ [x] := by
  apply List.ext_getElem?
  intro i
  rw [List.getElem?_set, shift_down_length, List.getElem?_append, List.getElem?_drop]
  by_cases hi : n = i
  · subst hi
    simp [hn]
  · rw [if_neg hi, shift_down_getElem? arr n (by omega) i]
    by_cases h1 : i < n
    · have h2 : i < arr.length - 1 := by omega
      simp [h1, h2, Nat.add_comm]
    · have h2 : ¬ i < (arr.drop 1).length := by simp [hn]; omega
      have h3 : arr.length ≤ i := by omega
      have h4 : i - (arr.drop 1).length ≠ 0 := by simp [hn]; omega
      simp only [h1, h2, if_false, List.getElem?_eq_none h3]
      cases h5 : i - (arr.drop 1).length with
      | zero => exact absurd h5 h4
      | succ j => rfl

theorem take_set_succ (arr : List (Option Token)) (n : Nat) (hn : n < arr.length)
    (x : Option Token) : (arr.set n x).take (n + 1) = arr.take n ++ [x] := by
  have e : (arr.set n x).take n = arr.take n := by
    apply List.ext_getElem?
    intro i
    rw [List.getElem?_take, List.getElem?_take]
    split
    · rw [List.getElem?_set, if_neg (by omega)]
    · rfl
  rw [List.take_succ, e]
  simp [List.getElem?_set, hn]

theorem add_to_history_holds (h : History) (added : List Token) (c : List Char)
    (hc : c ≠ []) (hh : h.Holds added) : (add_to_history h c).Holds (added ++ [c]) := by
  have hM : MAX_HISTORY = 100 := rfl
  have hlen : ¬ c.length = 0 := by
    intro e
    exact hc (List.length_eq_zero.mp e)
  obtain ⟨hcount, hrest⟩ := hh
  cases hch : h.command_history with
  | none =>
    rw [hch] at hrest
    simp only at hrest
    subst hrest
    have h0 : h.history_count = 0 := by simpa using hcount
    have hlt : ¬ h.history_count ≥ MAX_HISTORY := by rw [h0, hM]; omega
    have hadd : add_to_history h c =
        { command_history := some ((List.replicate MAX_HISTORY none).set h.history_count (some c)),
          history_count := h.history_count + 1 } := by
      simp only [add_to_history, if_neg hlen, hch, if_neg hlt]
    rw [hadd, h0]
    refine ⟨by rw [hM]; rfl, ?_, ?_⟩
    · simp
    · show List.take (0 + 1) _ = _
      rw [take_set_succ _ 0 (by simp [hM])]
      simp [hM]
  | some a =>
    rw [hch] at hrest
    obtain ⟨ha, htake⟩ := hrest
    by_cases hfull : h.history_count ≥ MAX_HISTORY
    · have hc100 : h.history_count = MAX_HISTORY := by omega
      have hl : MAX_HISTORY ≤ added.length := by omega
      have ha1 : a.length = (MAX_HISTORY - 1) + 1 := by rw [ha, hM]
      have ea : a = (added.drop (added.length - MAX_HISTORY)).map some := by
        rw [← htake, hc100, ← ha, List.take_length]
      have hadd : add_to_history h c =
          { command_history := some (a.drop 1 ++ [some c]),
            history_count := h.history_count } := by
        simp only [add_to_history, if_neg hlen, hch, if_pos hfull,
          shift_down_set_last a (MAX_HISTORY - 1) ha1]
      have e1 : (a.drop 1 ++ [some c]).length = h.history_count := by
        simp only [List.length_append, List.length_drop, List.length_singleton]
        omega
      rw [hadd]
      refine ⟨?_, ?_, ?_⟩
      · show h.history_count = min (added ++ [c]).length MAX_HISTORY
        simp only [List.length_append, List.length_singleton]
        omega
      · rw [e1, hc100]
      · show List.take h.history_count (a.drop 1 ++ [some c]) = _
        rw [← e1, List.take_length]
        have e2 : (added ++ [c]).length - MAX_HISTORY = added.length - MAX_HISTORY + 1 := by
          simp only [List.length_append, List.length_singleton]
          omega
        rw [e2, List.drop_append_of_le_length (by omega), List.map_append, ea, ← List.map_drop,
          List.drop_drop]
        simp [Nat.add_comm]
    · have hcl : h.history_count = added.length := by omega
      have hl : added.length < MAX_HISTORY := by omega
      have hadd : add_to_history h c =
          { command_history := some (a.set h.history_count (some c)),
            history_count := h.history_count + 1 } := by
        simp only [add_to_history, if_neg hlen, hch, if_neg hfull]
      rw [hadd]
      refine ⟨?_, ?_, ?_⟩
      · show h.history_count + 1 = min (added ++ [c]).length MAX_HISTORY
        simp only [List.length_append, List.length_singleton]
        omega
      · rw [List.length_set, ha]
      · show List.take (h.history_count + 1) (a.set h.history_count (some c)) = _
        rw [take_set_succ a _ (by omega), htake]
        have e0 : added.length - MAX_HISTORY = 0 := by omega
        have e1 : (added ++ [c]).length - MAX_HISTORY = 0 := by
          simp only [List.length_append, List.length_singleton]
          omega
        rw [e0, e1]
        simp

theorem add_to_history_empty (h : History) : add_to_history h [] = h := by
  simp [add_to_history]

theorem foldl_add_to_history_holds (cmds : List (List Char)) :
    ∀ (h : History) (added : List Token), h.Holds added →
      (cmds.foldl add_to_history h).Holds (added ++ cmds.filter (fun c => c ≠ [])) := by
  induction cmds with
  | nil => intro h added hh; simpa using hh
  | cons c cs ih =>
    intro h added hh
    rw [List.foldl_cons]
    by_cases hc : c = []
    · subst hc
      rw [add_to_history_empty]
      simpa using ih h added hh
    · have := ih _ _ (add_to_history_holds h added c hc hh)
      simpa [hc] using this

theorem holds_entries (h : History) (added : List Token) (hh : h.Holds added) :
    h.entries = (added.drop (added.length - MAX_HISTORY)).map some := by
  obtain ⟨hcount, hrest⟩ := hh
  unfold History.entries
  cases hch : h.command_history with
  | none =>
    rw [hch] at hrest
    simp only at hrest
    subst hrest
    rfl
  | some a =>
    rw [hch] at hrest
    exact hrest.2

theorem add_to_history_full (h : History) (added : List Token) (c : List Char)
    (hc : c ≠ []) (hh : h.Holds added) (hfull : h.history_count = MAX_HISTORY) :
    (add_to_history h c).entries = h.entries.drop 1 ++ [some c] := by
  have hM : MAX_HISTORY = 100 := rfl
  have hl : MAX_HISTORY ≤ added.length := by
    have := hh.1
    omega
  rw [holds_entries _ _ (add_to_history_holds h added c hc hh), holds_entries _ _ hh]
  have e2 : (added ++ [c]).length - MAX_HISTORY = added.length - MAX_HISTORY + 1 := by
    simp only [List.length_append, List.length_singleton]
    omega
  rw [e2, List.drop_append_of_le_length (by omega), List.map_append, ← List.map_drop,
    List.drop_drop]
  simp [Nat.add_comm]

/-- C14: after any sequence of `add_to_history` calls from the empty history,
`history_count` is at most `MAX_HISTORY` (it is the number of non-empty
commands added, capped at `MAX_HISTORY`) and the stored entries are exactly
the most recent `MAX_HISTORY` of the non-empty commands added, in the order
added; an empty command changes nothing, and adding a non-empty command to a
full history drops the oldest entry and appends the new one last. -/
theorem add_to_history_recent (cmds : List (List Char)) :
    (cmds.foldl add_to_history History.init).history_count ≤ MAX_HISTORY ∧
    (cmds.foldl add_to_history History.init).history_count =
      min (cmds.filter (fun c => c ≠ [])).length MAX_HISTORY ∧
    (cmds.foldl add_to_history History.init).entries =
      ((cmds.filter (fun c => c ≠ [])).drop
        ((cmds.filter (fun c => c ≠ [])).length - MAX_HISTORY)).map some ∧
    (∀ h : History, add_to_history h [] = h) ∧
    (∀ c : List Char, c ≠ [] →
      (cmds.foldl add_to_history History.init).history_count = MAX_HISTORY →
      (add_to_history (cmds.foldl add_to_history History.init) c).entries =
        (cmds.foldl add_to_history History.init).entries.drop 1 ++ [some c]) := by
  have hinit : History.init.Holds [] := ⟨rfl, rfl⟩
  have hh := foldl_add_to_history_holds cmds History.init [] hinit
  rw [List.nil_append] at hh
  refine ⟨?_, hh.1, holds_entries _ _ hh, add_to_history_empty, ?_⟩
  · rw [hh.1]
    exact Nat.min_le_right _ _
  · intro c hc hfull
    exact add_to_history_full _ _ c hc hh hfull

set_option maxRecDepth 1000000 in
/-- C14 at a history filled by one hundred commands `a`, to which `b` is
added. -/
theorem add_to_history_recent_witness :
    (add_to_history ((List.replicate 100 ['a']).foldl add_to_history History.init)
        ['b']).entries =
      ((List.replicate 100 ['a']).foldl add_to_history History.init).entries.drop 1 ++
        [some ['b']] :=
  (add_to_history_recent (List.replicate 100 ['a'])).2.2.2.2 ['b'] (by decide) (by decide)

end Cmpsh
